import Mathlib

/-!
Verification of the HSC Item Analysis data pipeline.

This file gives a shallow embedding, in Lean, of the data-processing core of
the repository (`src/data-processor.js`, `src/js/chart-generator.js`,
`src/pdf-generator.js`) and proves the behavioural properties claimed for it.

Modelling conventions:
* JavaScript arrays become `List`; `Array.prototype.sort` with a consistent
  comparator `cmp` is, per the ECMAScript specification, a stable sort in
  the order induced by `cmp`; it is embedded as `List.mergeSort` with
  `le a b := (cmp a b ≤ 0)`, which is exactly the stable sort in that order.
* JavaScript numbers used as exact quantities (marks, means) become `ℚ`;
  integer values obtained from digit strings become `Nat` (IEEE doubles
  represent these exactly below `2^53`, which covers all realistic labels).
  The one place where a division can produce `NaN`/`Infinity` is modelled
  explicitly by the `JsNum` type.
* Strings are Lean `String`s; Lean's character-wise lexicographic order
  coincides with JavaScript's UTF-16 comparison on Basic-Multilingual-Plane
  text, which covers all strings the program manipulates.
* JavaScript objects used as dictionaries become insertion-ordered
  association lists.
-/

/-! ## Generic helpers -/

/-- Substring test on character lists: `needle` occurs contiguously in `hay`.
Mirrors JavaScript `String.prototype.includes`. -/
def listContainsSub (hay needle : List Char) : Bool :=
  match hay with
  | [] => needle.isEmpty
  | _ :: rest => needle.isPrefixOf hay || listContainsSub rest needle

/-- `String.prototype.includes`: `sub` occurs contiguously in `s`. -/
def strContains (s sub : String) : Bool :=
  listContainsSub s.toList sub.toList

/-- `String.prototype.startsWith`. -/
def strStartsWith (s pre : String) : Bool :=
  pre.toList.isPrefixOf s.toList

/-- Numeric value of a digit string (most significant digit first). -/
def digitsToNat (cs : List Char) : Nat :=
  cs.foldl (fun n c => 10 * n + (c.toNat - '0'.toNat)) 0

/-- ASCII letter, exactly the character class `[a-zA-Z]` of the regexes in
`data-processor.js`. -/
def isAsciiLetter (c : Char) : Bool :=
  ('a' ≤ c && c ≤ 'z') || ('A' ≤ c && c ≤ 'Z')

/-- The sign of the JavaScript comparator `m - n` on exact numbers,
as an `Ordering`. -/
def numCmpJS (m n : Nat) : Ordering :=
  if m < n then .lt else if n < m then .gt else .eq

/-- The JavaScript relational comparison on strings,
`if (a < b) return -1; if (a > b) return 1; return 0`. -/
def strCmpJS (a b : String) : Ordering :=
  if a < b then .lt else if b < a then .gt else .eq

/-! ## Natural sort (`data-processor.js`, `naturalSortKey` /
`sortQuestionsNaturally`) -/

/-- `naturalSortKey(s)`: trim `s`, match it against `^(\d+)([a-zA-Z]*)$`;
on a match return the pair (numeric value of the digits, lowercased letter
suffix), otherwise the pair (`Infinity`, the trimmed string).  `Infinity`
is modelled by `none` in the first component. -/
def naturalSortKey (s : String) : Option Nat × String :=
  let t := s.trim
  let cs := t.toList
  let d := cs.takeWhile Char.isDigit
  let r := cs.dropWhile Char.isDigit
  if !d.isEmpty && r.all isAsciiLetter then
    (some (digitsToNat d), String.mk (r.map Char.toLower))
  else
    (none, t)

/-- The comparator body of `sortQuestionsNaturally`:
`if (ka[0] !== kb[0]) return ka[0] - kb[0];` then string comparison on the
second components.  Note `Infinity === Infinity`, so two non-matching keys
fall through to the string comparison. -/
def nsCmp (ka kb : Option Nat × String) : Ordering :=
  match ka.1, kb.1 with
  | some m, some n => if m = n then strCmpJS ka.2 kb.2 else numCmpJS m n
  | some _, none => .lt
  | none, some _ => .gt
  | none, none => strCmpJS ka.2 kb.2

/-- `sortQuestionsNaturally(data, column)`: sort a copy of `data` with the
comparator `nsCmp` on the natural sort keys of the `column` field.
The field access `row[column]` is modelled by the projection `col`. -/
def sortQuestionsNaturally (col : α → String) (data : List α) : List α :=
  data.mergeSort fun a b =>
    !(nsCmp (naturalSortKey (col a)) (naturalSortKey (col b)) == Ordering.gt)

/-- Numeric part of a natural sort key as an extended natural,
`none` (JavaScript `Infinity`) mapping to `⊤`. -/
def numPartE (k : Option Nat × String) : ℕ∞ :=
  match k.1 with
  | some n => (n : ℕ∞)
  | none => ⊤

@[simp] theorem numPartE_some (n : Nat) (s : String) :
    numPartE (some n, s) = (n : ℕ∞) := rfl

@[simp] theorem numPartE_none (s : String) : numPartE (none, s) = ⊤ := rfl

/-- The specified order on natural sort keys: strictly smaller numeric part
(with `Infinity` greatest), or equal numeric part and suffix string
less-or-equal. -/
def nsKeyLE (ka kb : Option Nat × String) : Prop :=
  numPartE ka < numPartE kb ∨ (ka.1 = kb.1 ∧ ka.2 ≤ kb.2)

theorem strCmpJS_eq_gt {a b : String} : strCmpJS a b = Ordering.gt ↔ b < a := by
  unfold strCmpJS
  by_cases h1 : a < b
  · simp only [if_pos h1]
    constructor
    · intro h
      exact absurd h (by decide)
    · intro h
      exact absurd h1 (lt_asymm h)
  · simp only [if_neg h1]
    by_cases h2 : b < a
    · simp [h2]
    · simp [h2]

theorem numCmpJS_eq_gt {m n : Nat} : numCmpJS m n = Ordering.gt ↔ n < m := by
  unfold numCmpJS
  by_cases h1 : m < n
  · simp only [if_pos h1]
    constructor
    · intro h
      exact absurd h (by decide)
    · omega
  · simp only [if_neg h1]
    by_cases h2 : n < m
    · simp [h2]
    · simp [h2]

theorem nsCmp_ne_gt_iff (ka kb : Option Nat × String) :
    ¬ nsCmp ka kb = Ordering.gt ↔ nsKeyLE ka kb := by
  rcases ka with ⟨ka1, ka2⟩
  rcases kb with ⟨kb1, kb2⟩
  cases ka1 with
  | none =>
    cases kb1 with
    | none =>
      show ¬ strCmpJS ka2 kb2 = Ordering.gt ↔ _
      rw [strCmpJS_eq_gt.not, not_lt]
      simp [nsKeyLE]
    | some n =>
      show ¬ Ordering.gt = Ordering.gt ↔ _
      simp [nsKeyLE]
  | some m =>
    cases kb1 with
    | none =>
      show ¬ Ordering.lt = Ordering.gt ↔ _
      simp only [reduceCtorEq, not_false_iff, true_iff]
      exact Or.inl (by simp [nsKeyLE, lt_top_iff_ne_top])
    | some n =>
      show ¬ (if m = n then strCmpJS ka2 kb2 else numCmpJS m n) = Ordering.gt ↔ _
      by_cases hmn : m = n
      · subst hmn
        rw [if_pos rfl, strCmpJS_eq_gt.not, not_lt]
        simp [nsKeyLE]
      · rw [if_neg hmn, numCmpJS_eq_gt.not, not_lt]
        simp only [nsKeyLE, numPartE_some]
        constructor
        · intro h
          left
          exact_mod_cast lt_of_le_of_ne h hmn
        · rintro (h | ⟨h, -⟩)
          · exact le_of_lt (by exact_mod_cast h)
          · exact absurd (Option.some.inj h) hmn

/-- The boolean `le` actually passed to the sort, and its meaning. -/
theorem nsLe_iff (ka kb : Option Nat × String) :
    (!(nsCmp ka kb == Ordering.gt)) = true ↔ nsKeyLE ka kb := by
  rw [← nsCmp_ne_gt_iff]
  cases h : nsCmp ka kb <;> simp [h] <;> rfl

theorem nsKeyLE_trans (ka kb kc : Option Nat × String)
    (h1 : nsKeyLE ka kb) (h2 : nsKeyLE kb kc) : nsKeyLE ka kc := by
  rcases h1 with h1 | ⟨h1, h1'⟩ <;> rcases h2 with h2 | ⟨h2, h2'⟩
  · exact Or.inl (lt_trans h1 h2)
  · left
    have : numPartE kb = numPartE kc := by
      unfold numPartE
      rw [h2]
    rwa [this] at h1
  · left
    have : numPartE ka = numPartE kb := by
      unfold numPartE
      rw [h1]
    rwa [this]
  · exact Or.inr ⟨h1.trans h2, h1'.trans h2'⟩

theorem nsKeyLE_total (ka kb : Option Nat × String) :
    nsKeyLE ka kb ∨ nsKeyLE kb ka := by
  rcases lt_trichotomy (numPartE ka) (numPartE kb) with h | h | h
  · exact Or.inl (Or.inl h)
  · have heq : ka.1 = kb.1 := by
      rcases ka with ⟨ka1, s1⟩
      rcases kb with ⟨kb1, s2⟩
      cases ka1 with
      | none =>
        cases kb1 with
        | none => rfl
        | some n =>
          simp only [numPartE_none, numPartE_some] at h
          exact absurd h.symm WithTop.coe_ne_top
      | some m =>
        cases kb1 with
        | none =>
          simp only [numPartE_none, numPartE_some] at h
          exact absurd h WithTop.coe_ne_top
        | some n =>
          simp only [numPartE_some] at h
          have : m = n := by exact_mod_cast h
          rw [this]
    rcases le_total ka.2 kb.2 with h2 | h2
    · exact Or.inl (Or.inr ⟨heq, h2⟩)
    · exact Or.inr (Or.inr ⟨heq.symm, h2⟩)
  · exact Or.inr (Or.inl h)

/-! ## Stability of the sort -/

/-- A stable sort does not reorder the elements selected by a predicate on
which the comparator never says "greater": filtering commutes with sorting. -/
theorem mergeSort_filter_congr (le : α → α → Bool)
    (htrans : ∀ (a b c : α), le a b → le b c → le a c)
    (htotal : ∀ (a b : α), le a b || le b a)
    (p : α → Bool) (hp : ∀ a b, p a → p b → le a b) (l : List α) :
    (l.mergeSort le).filter p = l.filter p := by
  have hpair : (l.filter p).Pairwise (fun a b => le a b) := by
    apply List.pairwise_of_forall_mem_list
    intro a ha b hb
    exact hp a b (List.mem_filter.mp ha).2 (List.mem_filter.mp hb).2
  have hsub : List.Sublist (l.filter p) (l.mergeSort le) :=
    List.sublist_mergeSort htrans htotal hpair (List.filter_sublist l)
  have hsub2 : List.Sublist (l.filter p) ((l.mergeSort le).filter p) := by
    have := hsub.filter p
    rwa [List.filter_filter, show (fun a => p a && p a) = p by
      funext a
      exact Bool.and_self (p a)] at this
  have hperm : List.Perm ((l.mergeSort le).filter p) (l.filter p) :=
    (List.mergeSort_perm l le).filter p
  exact (hsub2.eq_of_length hperm.length_eq.symm).symm

theorem nsLeB_trans (col : α → String) : ∀ (a b c : α),
    (!(nsCmp (naturalSortKey (col a)) (naturalSortKey (col b)) == Ordering.gt))
    → (!(nsCmp (naturalSortKey (col b)) (naturalSortKey (col c)) == Ordering.gt))
    → (!(nsCmp (naturalSortKey (col a)) (naturalSortKey (col c)) == Ordering.gt)) := by
  intro a b c hab hbc
  exact (nsLe_iff _ _).mpr
    (nsKeyLE_trans _ _ _ ((nsLe_iff _ _).mp hab) ((nsLe_iff _ _).mp hbc))

theorem nsLeB_total (col : α → String) : ∀ (a b : α),
    ((!(nsCmp (naturalSortKey (col a)) (naturalSortKey (col b)) == Ordering.gt))
     || (!(nsCmp (naturalSortKey (col b)) (naturalSortKey (col a)) == Ordering.gt))) := by
  intro a b
  rcases nsKeyLE_total (naturalSortKey (col a)) (naturalSortKey (col b)) with h | h
  · simp [(nsLe_iff _ _).mpr h]
  · simp [(nsLe_iff _ _).mpr h]

/-- The sorted output is ordered by the specified key order. -/
theorem sortQuestionsNaturally_pairwise (col : α → String) (l : List α) :
    (sortQuestionsNaturally col l).Pairwise
      (fun a b => nsKeyLE (naturalSortKey (col a)) (naturalSortKey (col b))) :=
  (List.sorted_mergeSort (nsLeB_trans col) (nsLeB_total col) l).imp
    fun h => (nsLe_iff _ _).mp h

/-- Stability: records with one fixed key keep their relative input order. -/
theorem sortQuestionsNaturally_filter (col : α → String) (l : List α)
    (k : Option Nat × String) :
    (sortQuestionsNaturally col l).filter
        (fun a => decide (naturalSortKey (col a) = k))
      = l.filter (fun a => decide (naturalSortKey (col a) = k)) := by
  apply mergeSort_filter_congr _ (nsLeB_trans col) (nsLeB_total col)
  intro a b ha hb
  have ha' := of_decide_eq_true ha
  have hb' := of_decide_eq_true hb
  apply (nsLe_iff _ _).mpr
  rw [ha', hb']
  exact Or.inr ⟨rfl, le_refl _⟩

/-- Claim C1: `sortQuestionsNaturally` returns a permutation of its input that
is sorted by the key `(numericPart, lowercasedSuffix)` — a label whose entire
trimmed form is digits followed by letters keyed by (digit value, lowercased
suffix), any other label keyed by (`Infinity`, its trimmed string) so that it
sorts after every matching label and non-matching labels are ordered among
themselves by plain string comparison — with keys compared numerically first
and lexicographically on the suffix second, and with equal keys keeping their
relative input order (stability, stated as: filtering the output by any fixed
key value gives exactly the input filtered by that key value). -/
theorem sortQuestionsNaturally_natural_order (col : α → String) (l : List α)
    (k : Option Nat × String) :
    (sortQuestionsNaturally col l).Perm l
    ∧ (sortQuestionsNaturally col l).Pairwise
        (fun a b => nsKeyLE (naturalSortKey (col a)) (naturalSortKey (col b)))
    ∧ (sortQuestionsNaturally col l).filter
          (fun a => decide (naturalSortKey (col a) = k))
        = l.filter (fun a => decide (naturalSortKey (col a) = k)) :=
  ⟨List.mergeSort_perm l _, sortQuestionsNaturally_pairwise col l,
    sortQuestionsNaturally_filter col l k⟩

/-! ## Frame effect of `sortQuestionsNaturally` (mutable-array view)

`sortQuestionsNaturally` runs `[...data].sort(cmp)`: the spread operator
allocates a fresh array holding the same elements, and `Array.prototype.sort`
sorts that fresh array in place.  To state the absence of mutation of the
input we model a JavaScript array store explicitly: a store is a list of
array contents, an array reference is an index into it. -/

structure Store (α : Type u) where
  cells : List (List α)

/-- Dereference an array; a dangling reference reads as an empty array. -/
def Store.read (h : Store α) (r : Nat) : List α :=
  (h.cells.getD r [])

/-- Allocate a fresh array holding `v`, returning the new store and the
fresh reference. -/
def Store.alloc (h : Store α) (v : List α) : Store α × Nat :=
  (⟨h.cells ++ [v]⟩, h.cells.length)

/-- Overwrite the contents of the array at `r`. -/
def Store.write (h : Store α) (r : Nat) (v : List α) : Store α :=
  ⟨h.cells.set r v⟩

/-- `sortQuestionsNaturally(data, column)` at the store level:
`[...data]` allocates a fresh array with the same contents, `.sort(...)`
replaces that fresh array's contents by the sorted contents, and the fresh
reference is returned. -/
def sortQuestionsNaturallyRef (col : α → String) (h : Store α) (r : Nat) :
    Store α × Nat :=
  let a := h.alloc (h.read r)
  let h2 := a.1.write a.2 (sortQuestionsNaturally col (a.1.read a.2))
  (h2, a.2)

theorem set_append_length (l : List α) (v w : α) :
    (l ++ [v]).set l.length w = l ++ [w] := by
  induction l with
  | nil => rfl
  | cons x xs ih =>
    show x :: (xs ++ [v]).set xs.length w = x :: (xs ++ [w])
    rw [ih]

theorem getD_append_lt (l l' : List α) (r : Nat) (d : α) (h : r < l.length) :
    (l ++ l').getD r d = l.getD r d := by
  unfold List.getD
  rw [List.get?_eq_getElem?, List.get?_eq_getElem?, List.getElem?_append_left h]

theorem getD_append_length (l : List α) (v d : α) :
    (l ++ [v]).getD l.length d = v := by
  unfold List.getD
  rw [List.get?_eq_getElem?, List.getElem?_append_right (Nat.le_refl _)]
  simp

/-- Claim C10: `sortQuestionsNaturally` does not modify its input array.
Given a valid reference `r`, after the call the array at `r` still holds
exactly the elements it held before, in the same order; the result is a
distinct, newly allocated array holding the sorted copy. -/
theorem sortQuestionsNaturallyRef_frame (col : α → String) (h : Store α)
    (r : Nat) (hr : r < h.cells.length) :
    ((sortQuestionsNaturallyRef col h r).1.read r = h.read r)
    ∧ (sortQuestionsNaturallyRef col h r).2 ≠ r
    ∧ (sortQuestionsNaturallyRef col h r).1.read (sortQuestionsNaturallyRef col h r).2
        = sortQuestionsNaturally col (h.read r) := by
  unfold sortQuestionsNaturallyRef Store.alloc Store.write Store.read
  simp only
  rw [set_append_length]
  refine ⟨?_, ?_, ?_⟩
  · exact getD_append_lt _ _ _ _ hr
  · omega
  · rw [getD_append_length, getD_append_length]

/-- Witness for C10 at a concrete store: a two-element store whose first
array is `["2", "10", "x"]`; sorting leaves it untouched and returns a fresh
reference holding `["2", "10", "x"]` sorted naturally (`["2", "10", "x"]`
has keys `2 < 10 < ∞`, so the sorted copy is the same sequence here; the
input cell is byte-for-byte unchanged). -/
theorem sortQuestionsNaturallyRef_frame_witness :
    (0 < (Store.mk [["10", "2", "x"]] : Store String).cells.length)
    ∧ ((sortQuestionsNaturallyRef id (Store.mk [["10", "2", "x"]]) 0).1.read 0
        = ["10", "2", "x"]) := by
  refine ⟨by decide, ?_⟩
  have := (sortQuestionsNaturallyRef_frame id (Store.mk [["10", "2", "x"]]) 0
    (by decide)).1
  rw [this]
  rfl

/-! ## Normalized records -/

/-- The coerced `Year` value: `parseInt(row['Year']) || String(row['Year'])`
keeps the integer when it parses and is non-zero, otherwise the raw string. -/
inductive YearVal where
  | int (n : Int)
  | str (s : String)
deriving DecidableEq

/-- A normalized record as produced by `processData` (`data-processor.js`):
the canonical fields with coerced types. -/
structure Record where
  subject : String
  year : YearVal
  item : String
  mcEr : String
  content : String
  outcome : String
  schoolMean : ℚ
  stateMean : ℚ
  maxMark : ℚ
deriving DecidableEq

/-! ## JavaScript division (`successRate`) -/

/-- An exact JavaScript number: a finite rational or one of the non-finite
values that division by zero can produce. -/
inductive JsNum where
  | num (q : ℚ)
  | posInf
  | negInf
  | nan
deriving DecidableEq

/-- JavaScript division on exact values: division by zero produces `NaN`
for `0 / 0` and a signed infinity otherwise. -/
def jsDiv (a b : ℚ) : JsNum :=
  if b = 0 then (if a = 0 then .nan else if 0 < a then .posInf else .negInf)
  else .num (a / b)

/-- Multiplication by the positive constant `100`, preserving non-finite
values. -/
def jsMul100 : JsNum → JsNum
  | .num q => .num (q * 100)
  | .posInf => .posInf
  | .negInf => .negInf
  | .nan => .nan

/-- `successRate = (r['School Mean (Item)'] / r['Max Mark (Item)']) * 100`. -/
def successRateOf (r : Record) : JsNum :=
  jsMul100 (jsDiv r.schoolMean r.maxMark)

/-! ## Outlier selection (`pdf-generator.js` `generateTopBottomMetadata`,
`js/chart-generator.js` `createAllCharts`) -/

/-- A record paired with its computed `successRate` field. -/
structure Rated where
  row : Record
  successRate : JsNum
deriving DecidableEq

/-- `rows.map(r => ({...r, successRate})).sort((a, b) =>
b['School Mean (Item)'] - a['School Mean (Item)'])`: attach the success
rate, then stable-sort descending by the raw school mean. -/
def withRate (rows : List Record) : List Rated :=
  (rows.map fun r => Rated.mk r (successRateOf r)).mergeSort
    fun a b => decide (b.row.schoolMean ≤ a.row.schoolMean)

/-- `withRate.slice(0, 5)`. -/
def top5 (rows : List Record) : List Rated :=
  (withRate rows).take 5

/-- `withRate.slice(-5).reverse()`. -/
def bottom5 (rows : List Record) : List Rated :=
  ((withRate rows).drop ((withRate rows).length - 5)).reverse

/-- A page descriptor as assembled by the chart generator and the PDF
generator: the fields `sortPages`, `createSubjectPDF` and `addTOCPages`
inspect, plus the outlier record payload of detail pages. -/
structure Page where
  subject : String
  year : String
  title : String
  type : String
  subType : Option String
  data : Option Rated
deriving DecidableEq

/-- `generateTopBottomMetadata` for one `(subject, year)` group: one
`topbottom` detail page per top-5 record, then one per bottom-5 record. -/
def topBottomPages (subject year : String) (rows : List Record) : List Page :=
  ((top5 rows).map fun r =>
    Page.mk subject year
      (subject ++ " - " ++ year ++ " - Best Performing Questions")
      "topbottom" none (some r))
  ++ ((bottom5 rows).map fun r =>
    Page.mk subject year
      (subject ++ " - " ++ year ++ " - Questions Needing Additional Support")
      "topbottom" none (some r))

theorem successRateOf_nonfinite (r : Record) (h : r.maxMark = 0) :
    successRateOf r = JsNum.nan ∨ successRateOf r = JsNum.posInf
      ∨ successRateOf r = JsNum.negInf := by
  unfold successRateOf jsDiv
  rw [h, if_pos rfl]
  by_cases h0 : r.schoolMean = 0
  · simp [h0, jsMul100]
  · by_cases hp : 0 < r.schoolMean
    · simp [h0, hp, jsMul100]
    · simp [h0, hp, jsMul100]

theorem withRate_map_row (rows : List Record) :
    List.Perm ((withRate rows).map Rated.row) rows := by
  have h := (List.mergeSort_perm
    (rows.map fun r => Rated.mk r (successRateOf r))
    (fun a b => decide (b.row.schoolMean ≤ a.row.schoolMean))).map Rated.row
  unfold withRate
  rw [List.map_map] at h
  have hcomp : (Rated.row ∘ fun r => Rated.mk r (successRateOf r)) = id := rfl
  rw [hcomp, List.map_id] at h
  exact h

theorem withRate_length (rows : List Record) :
    (withRate rows).length = rows.length := by
  unfold withRate
  rw [List.length_mergeSort, List.length_map]

/-- Claim C3: outlier selection for one `(subject, year)` group attaches
`successRate = schoolMean / maxMark * 100` to every record (non-finite when
`maxMark = 0`), sorts the group descending by the raw school mean (not the
rate), takes the first five as the top list and the last five reversed as the
bottom list; a group of `n < 5` records yields two lists of length `n`
(identical record sets in reverse order when `n ≤ 5`), an empty group yields
no outlier pages at all, and for small groups (`n ≤ 9`) the two lists
overlap without any deduplication. -/
theorem outlier_selection_spec (s y : String) (rows : List Record) :
    List.Perm ((withRate rows).map Rated.row) rows
    ∧ (∀ x ∈ withRate rows, x.successRate = successRateOf x.row)
    ∧ (∀ x ∈ withRate rows, x.row.maxMark = 0 →
        x.successRate = JsNum.nan ∨ x.successRate = JsNum.posInf
          ∨ x.successRate = JsNum.negInf)
    ∧ (withRate rows).Pairwise (fun a b => b.row.schoolMean ≤ a.row.schoolMean)
    ∧ top5 rows = (withRate rows).take 5
    ∧ bottom5 rows
        = ((withRate rows).drop ((withRate rows).length - 5)).reverse
    ∧ (rows.length < 5 →
        (top5 rows).length = rows.length ∧ (bottom5 rows).length = rows.length)
    ∧ (rows.length ≤ 5 → bottom5 rows = (top5 rows).reverse)
    ∧ (rows = [] → topBottomPages s y rows = [])
    ∧ (1 ≤ rows.length → rows.length ≤ 9 →
        ∃ x, x ∈ top5 rows ∧ x ∈ bottom5 rows) := by
  have hmem : ∀ x ∈ withRate rows, x.successRate = successRateOf x.row := by
    intro x hx
    unfold withRate at hx
    rw [List.mem_mergeSort] at hx
    obtain ⟨r, -, rfl⟩ := List.mem_map.mp hx
    rfl
  refine ⟨withRate_map_row rows, hmem, ?_, ?_, rfl, rfl, ?_, ?_, ?_, ?_⟩
  · intro x hx h0
    rw [hmem x hx]
    exact successRateOf_nonfinite x.row h0
  · have hs := @List.sorted_mergeSort Rated
      (fun a b : Rated => decide (b.row.schoolMean ≤ a.row.schoolMean))
      (fun a b c h1 h2 => by
        simp only [decide_eq_true_eq] at h1 h2 ⊢
        exact le_trans h2 h1)
      (fun a b => by
        rcases le_total b.row.schoolMean a.row.schoolMean with h | h
        · simp [h]
        · simp [h])
      (rows.map fun r => Rated.mk r (successRateOf r))
    exact hs.imp fun h => of_decide_eq_true h
  · intro h5
    constructor
    · unfold top5
      rw [List.length_take, withRate_length]
      omega
    · unfold bottom5
      rw [List.length_reverse, List.length_drop, withRate_length]
      omega
  · intro h5
    unfold bottom5 top5
    rw [withRate_length]
    have h0 : rows.length - 5 = 0 := by omega
    rw [h0, List.drop_zero,
      List.take_of_length_le (by rw [withRate_length]; omega)]
  · rintro rfl
    unfold topBottomPages top5 bottom5 withRate
    simp
  · intro h1 h9
    have hlen := withRate_length rows
    have hi : rows.length - 5 < (withRate rows).length := by omega
    refine ⟨(withRate rows).get ⟨rows.length - 5, hi⟩, ?_, ?_⟩
    · unfold top5
      have h5 : rows.length - 5 < 5 := by omega
      have ht : rows.length - 5 < ((withRate rows).take 5).length := by
        rw [List.length_take]
        omega
      have : ((withRate rows).take 5).get ⟨rows.length - 5, ht⟩
          = (withRate rows).get ⟨rows.length - 5, hi⟩ := by
        simp [List.getElem_take]
      rw [← this]
      exact List.get_mem _ _ _
    · unfold bottom5
      rw [List.mem_reverse]
      have hd : (withRate rows).length - 5 = rows.length - 5 := by rw [hlen]
      rw [hd, List.drop_eq_getElem_cons hi]
      exact List.mem_cons_self _ _

/-- A concrete record with `maxMark = 0` (degenerate success rate). -/
def rZ : Record :=
  Record.mk "English" (YearVal.int 2023) "1" "MC" "" "" 3 2 0

theorem outlier_selection_spec_witness :
    ((Rated.mk rZ (successRateOf rZ)).successRate = successRateOf rZ)
    ∧ ((Rated.mk rZ (successRateOf rZ)).successRate = JsNum.nan
        ∨ (Rated.mk rZ (successRateOf rZ)).successRate = JsNum.posInf
        ∨ (Rated.mk rZ (successRateOf rZ)).successRate = JsNum.negInf)
    ∧ ((top5 [rZ]).length = [rZ].length ∧ (bottom5 [rZ]).length = [rZ].length)
    ∧ (bottom5 [rZ] = (top5 [rZ]).reverse)
    ∧ (topBottomPages "English" "2023" [] = [])
    ∧ (∃ x, x ∈ top5 [rZ] ∧ x ∈ bottom5 [rZ]) := by
  have H := outlier_selection_spec "English" "2023" [rZ]
  have H0 := outlier_selection_spec "English" "2023" []
  have hm : Rated.mk rZ (successRateOf rZ) ∈ withRate [rZ] := by
    unfold withRate
    rw [List.mem_mergeSort]
    simp
  exact ⟨H.2.1 _ hm, H.2.2.1 _ hm rfl,
    H.2.2.2.2.2.2.1 (by decide),
    H.2.2.2.2.2.2.2.1 (by decide),
    H0.2.2.2.2.2.2.2.2.1 rfl,
    H.2.2.2.2.2.2.2.2.2 (by decide) (by decide)⟩

/-! ## Aggregation (`js/chart-generator.js`, `aggregateData`) -/

/-- An accumulation bucket for one tag value (`groups[key]` in the source). -/
structure Bucket where
  max : ℚ
  schoolSum : ℚ
  stateSum : ℚ
  count : Nat
  label : String
deriving DecidableEq

/-- The freshly created bucket `{max: 0, schoolSum: 0, stateSum: 0,
count: 0, label: key}`. -/
def Bucket.init (key : String) : Bucket :=
  Bucket.mk 0 0 0 0 key

/-- One accumulation step into a bucket. -/
def Bucket.bump (b : Bucket) (r : Record) : Bucket :=
  { b with
    max := b.max + r.maxMark,
    schoolSum := b.schoolSum + r.schoolMean,
    stateSum := b.stateSum + r.stateMean,
    count := b.count + 1 }

/-- `if (!groups[key]) groups[key] = …; groups[key] += …`: get-or-create the
bucket for `key` in the insertion-ordered dictionary, then accumulate. -/
def updateBuckets : List (String × Bucket) → String → Record →
    List (String × Bucket)
  | [], key, r => [(key, (Bucket.init key).bump r)]
  | (k, b) :: rest, key, r =>
    if k = key then (k, b.bump r) :: rest
    else (k, b) :: updateBuckets rest key r

/-- The accumulation loop of `aggregateData`: iterate the rows, skipping any
row whose trimmed tag is empty. -/
def buildBuckets (col : Record → String) (rows : List Record) :
    List (String × Bucket) :=
  rows.foldl
    (fun bs r =>
      let key := (col r).trim
      if key = "" then bs else updateBuckets bs key r) []

/-- An output row of `aggregateData`. -/
structure AggRow where
  tag : String
  maxMark : ℚ
  schoolMean : ℚ
  stateMean : ℚ
deriving DecidableEq

/-- `aggregateData(rows, groupCol)`: accumulate buckets, convert each to an
output row (summed max mark, averaged school/state means), then natural-sort
by the tag field. -/
def aggregateData (col : Record → String) (rows : List Record) : List AggRow :=
  let result := (buildBuckets col rows).map fun p =>
    AggRow.mk p.2.label p.2.max (p.2.schoolSum / (p.2.count : ℚ))
      (p.2.stateSum / (p.2.count : ℚ))
  sortQuestionsNaturally AggRow.tag result

/-- The records of `rows` carrying the (trimmed) tag `t`. -/
def tagRecs (col : Record → String) (t : String) (rows : List Record) :
    List Record :=
  rows.filter fun r => decide ((col r).trim = t)

/-- The bucket that the accumulation loop should have built for tag `t`
after processing `rows`: none when `t` is blank or no record carries `t`,
otherwise the exact sums and count over the records carrying `t`. -/
def expectedBucket (col : Record → String) (t : String) (rows : List Record) :
    Option Bucket :=
  if t = "" ∨ tagRecs col t rows = [] then none
  else some (Bucket.mk
    ((tagRecs col t rows).map Record.maxMark).sum
    ((tagRecs col t rows).map Record.schoolMean).sum
    ((tagRecs col t rows).map Record.stateMean).sum
    (tagRecs col t rows).length t)

/-- Dictionary lookup in the insertion-ordered bucket list. -/
def bucketLookup (bs : List (String × Bucket)) (t : String) : Option Bucket :=
  (bs.find? fun p => p.1 == t).map Prod.snd

theorem updateBuckets_keys (bs : List (String × Bucket)) (key : String)
    (r : Record) :
    (updateBuckets bs key r).map Prod.fst =
      if key ∈ bs.map Prod.fst then bs.map Prod.fst
      else bs.map Prod.fst ++ [key] := by
  induction bs with
  | nil => simp [updateBuckets]
  | cons p rest ih =>
    obtain ⟨k, b⟩ := p
    by_cases hk : k = key
    · subst hk
      simp [updateBuckets]
    · simp only [updateBuckets, if_neg hk, List.map_cons, List.mem_cons, ih]
      have hne : ¬ key = k := fun h => hk h.symm
      by_cases hmem : key ∈ rest.map Prod.fst
      · simp [hmem, hne]
      · simp [hmem, hne]

theorem bucketLookup_cons (k : String) (b : Bucket)
    (rest : List (String × Bucket)) (t : String) :
    bucketLookup ((k, b) :: rest) t =
      if k = t then some b else bucketLookup rest t := by
  unfold bucketLookup
  by_cases h : k = t
  · simp [List.find?, h]
  · have hbeq : (k == t) = false := by simpa using h
    simp [List.find?, hbeq, h]

theorem updateBuckets_lookup (bs : List (String × Bucket)) (key : String)
    (r : Record) (t : String) :
    bucketLookup (updateBuckets bs key r) t =
      if t = key then
        some (((bucketLookup bs key).getD (Bucket.init key)).bump r)
      else bucketLookup bs t := by
  induction bs with
  | nil =>
    show bucketLookup [(key, (Bucket.init key).bump r)] t = _
    rw [bucketLookup_cons]
    by_cases ht : t = key
    · rw [if_pos ht.symm, if_pos ht]
      rfl
    · rw [if_neg (fun h => ht h.symm), if_neg ht]
  | cons p rest ih =>
    obtain ⟨k, b⟩ := p
    unfold updateBuckets
    by_cases hk : k = key
    · rw [if_pos hk, bucketLookup_cons, bucketLookup_cons]
      by_cases ht : t = key
      · rw [if_pos (hk.trans ht.symm), if_pos ht, if_pos hk]
        rfl
      · rw [if_neg (fun h : k = t => ht (h.symm.trans hk)), if_neg ht,
          bucketLookup_cons, if_neg (fun h : k = t => ht (h.symm.trans hk))]
    · rw [if_neg hk, bucketLookup_cons]
      by_cases hkt : k = t
      · have htkey : ¬ t = key := fun h => hk (hkt.trans h)
        rw [if_pos hkt, if_neg htkey, bucketLookup_cons, if_pos hkt]
      · rw [if_neg hkt, ih]
        simp only [bucketLookup_cons]
        rw [if_neg hk, if_neg hkt]

theorem tagRecs_append (col : Record → String) (t : String)
    (l1 l2 : List Record) :
    tagRecs col t (l1 ++ l2) = tagRecs col t l1 ++ tagRecs col t l2 := by
  unfold tagRecs
  rw [List.filter_append]

theorem expectedBucket_blank (col : Record → String) (rows : List Record) :
    expectedBucket col "" rows = none := by
  unfold expectedBucket
  simp

theorem expectedBucket_append_other (col : Record → String) (t : String)
    (pre : List Record) (r : Record) (h : ¬ (col r).trim = t) :
    expectedBucket col t (pre ++ [r]) = expectedBucket col t pre := by
  have hnil : tagRecs col t [r] = [] := by
    unfold tagRecs
    simp [h]
  unfold expectedBucket
  rw [tagRecs_append, hnil, List.append_nil]

theorem expectedBucket_append_same (col : Record → String) (pre : List Record)
    (r : Record) (hne : ¬ (col r).trim = "") :
    expectedBucket col ((col r).trim) (pre ++ [r])
      = some (((expectedBucket col ((col r).trim) pre).getD
          (Bucket.init ((col r).trim))).bump r) := by
  have hsingle : tagRecs col ((col r).trim) [r] = [r] := by
    unfold tagRecs
    simp
  have happ : tagRecs col ((col r).trim) (pre ++ [r])
      = tagRecs col ((col r).trim) pre ++ [r] := by
    rw [tagRecs_append, hsingle]
  by_cases hempty : tagRecs col ((col r).trim) pre = []
  · have h1 : expectedBucket col ((col r).trim) pre = none := by
      unfold expectedBucket
      rw [if_pos (Or.inr hempty)]
    rw [h1]
    unfold expectedBucket
    rw [if_neg (by
      rw [happ, hempty]
      simp [hne])]
    rw [happ, hempty]
    unfold Bucket.init Bucket.bump
    simp
  · have hcond : ¬ ((col r).trim = "" ∨ tagRecs col ((col r).trim) pre = []) := by
      rintro (h | h)
      · exact hne h
      · exact hempty h
    have hcond2 :
        ¬ ((col r).trim = "" ∨ tagRecs col ((col r).trim) (pre ++ [r]) = []) := by
      rw [happ]
      rintro (h | h)
      · exact hne h
      · exact absurd h (by simp)
    unfold expectedBucket
    rw [if_neg hcond2, if_neg hcond]
    rw [happ]
    unfold Bucket.bump
    simp

/-- Invariant of the accumulation loop after processing the rows `pre`:
bucket keys are distinct, and looking up any tag yields exactly the expected
bucket for the rows processed so far. -/
def BucketsOK (col : Record → String) (pre : List Record)
    (bs : List (String × Bucket)) : Prop :=
  (bs.map Prod.fst).Nodup ∧ ∀ t, bucketLookup bs t = expectedBucket col t pre

theorem bucketsOK_nil (col : Record → String) : BucketsOK col [] [] := by
  refine ⟨by simp, fun t => ?_⟩
  unfold bucketLookup expectedBucket tagRecs
  simp [List.find?]

theorem bucketsOK_step (col : Record → String) (pre : List Record)
    (bs : List (String × Bucket)) (r : Record) (h : BucketsOK col pre bs) :
    BucketsOK col (pre ++ [r])
      (if (col r).trim = "" then bs else updateBuckets bs ((col r).trim) r) := by
  obtain ⟨hnodup, hlook⟩ := h
  by_cases hkey : (col r).trim = ""
  · rw [if_pos hkey]
    refine ⟨hnodup, fun t => ?_⟩
    rw [hlook t]
    by_cases ht : t = ""
    · rw [ht, expectedBucket_blank, expectedBucket_blank]
    · exact (expectedBucket_append_other col t pre r
        (fun hc => ht (hc.symm.trans hkey))).symm
  · rw [if_neg hkey]
    constructor
    · rw [updateBuckets_keys]
      by_cases hmem : (col r).trim ∈ bs.map Prod.fst
      · rwa [if_pos hmem]
      · rw [if_neg hmem]
        rw [List.nodup_append]
        refine ⟨hnodup, List.nodup_singleton _, ?_⟩
        intro a ha hb
        rw [List.mem_singleton] at hb
        exact hmem (hb ▸ ha)
    · intro t
      rw [updateBuckets_lookup]
      by_cases ht : t = (col r).trim
      · rw [if_pos ht, hlook ((col r).trim), ht,
          expectedBucket_append_same col pre r hkey]
      · rw [if_neg ht, hlook t,
          expectedBucket_append_other col t pre r (fun hc => ht hc.symm)]

theorem bucketsOK_build (col : Record → String) (rows : List Record) :
    BucketsOK col rows (buildBuckets col rows) := by
  suffices h : ∀ (l : List Record) (pre : List Record)
      (bs : List (String × Bucket)), BucketsOK col pre bs →
      BucketsOK col (pre ++ l)
        (l.foldl (fun bs r =>
          let key := (col r).trim
          if key = "" then bs else updateBuckets bs key r) bs) by
    have := h rows [] [] (bucketsOK_nil col)
    simpa [buildBuckets] using this
  intro l
  induction l with
  | nil =>
    intro pre bs h
    simpa using h
  | cons r rest ih =>
    intro pre bs h
    have h2 := bucketsOK_step col pre bs r h
    have h3 := ih (pre ++ [r]) _ h2
    rw [List.append_assoc] at h3
    simpa using h3

theorem bucketLookup_of_mem (bs : List (String × Bucket))
    (hnodup : (bs.map Prod.fst).Nodup) (p : String × Bucket) (hp : p ∈ bs) :
    bucketLookup bs p.1 = some p.2 := by
  induction bs with
  | nil => cases hp
  | cons q rest ih =>
    obtain ⟨k, b⟩ := q
    rw [bucketLookup_cons]
    rcases List.mem_cons.mp hp with heq | hp'
    · rw [heq]
      rw [if_pos rfl]
    · by_cases hk : k = p.1
      · exfalso
        have hmem : p.1 ∈ rest.map Prod.fst := List.mem_map.mpr ⟨p, hp', rfl⟩
        rw [← hk] at hmem
        exact (List.nodup_cons.mp (by simpa using hnodup)).1 hmem
      · rw [if_neg hk]
        exact ih (List.nodup_cons.mp (by simpa using hnodup)).2 hp'

/-- Claim C2: `aggregateData` skips exactly the records whose trimmed tag is
empty, and produces one output row per distinct non-empty trimmed tag,
carrying the tag, the sum of the max marks over exactly that tag's records,
and the arithmetic mean (sum divided by count, not the sum) of the school
means and of the state means over exactly that tag's records; the rows are
ordered by the natural-sort key of the tag field. -/
theorem aggregateData_spec (col : Record → String) (rows : List Record) :
    (∀ a ∈ aggregateData col rows,
      a.tag ≠ ""
      ∧ tagRecs col a.tag rows ≠ []
      ∧ a.maxMark = ((tagRecs col a.tag rows).map Record.maxMark).sum
      ∧ a.schoolMean = ((tagRecs col a.tag rows).map Record.schoolMean).sum
          / ((tagRecs col a.tag rows).length : ℚ)
      ∧ a.stateMean = ((tagRecs col a.tag rows).map Record.stateMean).sum
          / ((tagRecs col a.tag rows).length : ℚ))
    ∧ (∀ t : String,
        (∃ a ∈ aggregateData col rows, a.tag = t)
        ↔ (t ≠ "" ∧ ∃ r ∈ rows, (col r).trim = t))
    ∧ ((aggregateData col rows).map AggRow.tag).Nodup
    ∧ (aggregateData col rows).Pairwise
        (fun a b => nsKeyLE (naturalSortKey a.tag) (naturalSortKey b.tag)) := by
  obtain ⟨hnodup, hlook⟩ := bucketsOK_build col rows
  have hmemIff : ∀ a : AggRow, a ∈ aggregateData col rows ↔
      ∃ p ∈ buildBuckets col rows,
        a = AggRow.mk p.2.label p.2.max (p.2.schoolSum / (p.2.count : ℚ))
          (p.2.stateSum / (p.2.count : ℚ)) := by
    intro a
    show a ∈ sortQuestionsNaturally AggRow.tag _ ↔ _
    unfold sortQuestionsNaturally
    rw [List.mem_mergeSort, List.mem_map]
    constructor
    · rintro ⟨p, hp, rfl⟩
      exact ⟨p, hp, rfl⟩
    · rintro ⟨p, hp, rfl⟩
      exact ⟨p, hp, rfl⟩
  have hentry : ∀ p ∈ buildBuckets col rows,
      p.1 ≠ "" ∧ tagRecs col p.1 rows ≠ []
      ∧ p.2 = Bucket.mk ((tagRecs col p.1 rows).map Record.maxMark).sum
          ((tagRecs col p.1 rows).map Record.schoolMean).sum
          ((tagRecs col p.1 rows).map Record.stateMean).sum
          (tagRecs col p.1 rows).length p.1 := by
    intro p hp
    have h1 := bucketLookup_of_mem _ hnodup p hp
    rw [hlook p.1] at h1
    unfold expectedBucket at h1
    by_cases hc : p.1 = "" ∨ tagRecs col p.1 rows = []
    · rw [if_pos hc] at h1
      cases h1
    · rw [if_neg hc] at h1
      push_neg at hc
      exact ⟨hc.1, hc.2, (Option.some.inj h1).symm⟩
  refine ⟨?_, ?_, ?_, sortQuestionsNaturally_pairwise AggRow.tag _⟩
  · intro a ha
    obtain ⟨p, hp, rfl⟩ := (hmemIff a).mp ha
    obtain ⟨hne, hnonempty, hbucket⟩ := hentry p hp
    have hlabel : p.2.label = p.1 := by rw [hbucket]
    have hmax : p.2.max = ((tagRecs col p.1 rows).map Record.maxMark).sum := by
      rw [hbucket]
    have hschool : p.2.schoolSum
        = ((tagRecs col p.1 rows).map Record.schoolMean).sum := by
      rw [hbucket]
    have hstate : p.2.stateSum
        = ((tagRecs col p.1 rows).map Record.stateMean).sum := by
      rw [hbucket]
    have hcount : p.2.count = (tagRecs col p.1 rows).length := by
      rw [hbucket]
    refine ⟨?_, ?_, ?_, ?_, ?_⟩
    · show p.2.label ≠ ""
      rw [hlabel]
      exact hne
    · show tagRecs col p.2.label rows ≠ []
      rw [hlabel]
      exact hnonempty
    · show p.2.max = ((tagRecs col p.2.label rows).map Record.maxMark).sum
      rw [hlabel, hmax]
    · show p.2.schoolSum / (p.2.count : ℚ)
        = ((tagRecs col p.2.label rows).map Record.schoolMean).sum
          / ((tagRecs col p.2.label rows).length : ℚ)
      rw [hlabel, hschool, hcount]
    · show p.2.stateSum / (p.2.count : ℚ)
        = ((tagRecs col p.2.label rows).map Record.stateMean).sum
          / ((tagRecs col p.2.label rows).length : ℚ)
      rw [hlabel, hstate, hcount]
  · intro t
    constructor
    · rintro ⟨a, ha, rfl⟩
      obtain ⟨p, hp, rfl⟩ := (hmemIff a).mp ha
      obtain ⟨hne, hnonempty, hbucket⟩ := hentry p hp
      have hlabel : p.2.label = p.1 := by rw [hbucket]
      show p.2.label ≠ "" ∧ ∃ r ∈ rows, (col r).trim = p.2.label
      rw [hlabel]
      refine ⟨hne, ?_⟩
      have h2 := hnonempty
      unfold tagRecs at h2
      rw [ne_eq, List.filter_eq_nil_iff] at h2
      push_neg at h2
      obtain ⟨r, hr, hrt⟩ := h2
      exact ⟨r, hr, of_decide_eq_true hrt⟩
    · rintro ⟨ht, r, hr, hrt⟩
      have hnonempty : tagRecs col t rows ≠ [] := by
        unfold tagRecs
        rw [ne_eq, List.filter_eq_nil_iff]
        push_neg
        exact ⟨r, hr, decide_eq_true hrt⟩
      have hexp : expectedBucket col t rows
          = some (Bucket.mk ((tagRecs col t rows).map Record.maxMark).sum
              ((tagRecs col t rows).map Record.schoolMean).sum
              ((tagRecs col t rows).map Record.stateMean).sum
              (tagRecs col t rows).length t) := by
        unfold expectedBucket
        rw [if_neg (by
          rintro (h | h)
          · exact ht h
          · exact hnonempty h)]
      have hlk := (hlook t).trans hexp
      unfold bucketLookup at hlk
      obtain ⟨q, hfind, hq2⟩ := Option.map_eq_some'.mp hlk
      have hqmem := List.mem_of_find?_eq_some hfind
      have hq1 : q.1 = t := by simpa using List.find?_some hfind
      refine ⟨AggRow.mk q.2.label q.2.max (q.2.schoolSum / (q.2.count : ℚ))
        (q.2.stateSum / (q.2.count : ℚ)), (hmemIff _).mpr ⟨q, hqmem, rfl⟩, ?_⟩
      show q.2.label = t
      rw [hq2]
  · have hperm : List.Perm (aggregateData col rows)
        ((buildBuckets col rows).map fun p =>
          AggRow.mk p.2.label p.2.max (p.2.schoolSum / (p.2.count : ℚ))
            (p.2.stateSum / (p.2.count : ℚ))) :=
      List.mergeSort_perm _ _
    have hp2 := hperm.map AggRow.tag
    rw [List.map_map] at hp2
    have heq : (buildBuckets col rows).map (AggRow.tag ∘ fun p =>
          AggRow.mk p.2.label p.2.max (p.2.schoolSum / (p.2.count : ℚ))
            (p.2.stateSum / (p.2.count : ℚ)))
        = (buildBuckets col rows).map Prod.fst := by
      apply List.map_congr_left
      intro p hp
      obtain ⟨-, -, hbucket⟩ := hentry p hp
      show p.2.label = p.1
      rw [hbucket]
    rw [heq] at hp2
    exact hp2.nodup_iff.mpr hnodup

/-- Concrete records for the aggregation witness: two share the trimmed tag
`"A"`, the third has a blank (whitespace-only) tag. -/
def rC1 : Record := Record.mk "Maths" (YearVal.int 2024) "1" "MC" "A" "" 2 1 5

def rC2 : Record :=
  Record.mk "Maths" (YearVal.int 2024) "2" "MC" " A " "" 4 3 7

def rC3 : Record :=
  Record.mk "Maths" (YearVal.int 2024) "3" "ER" "  " "" 9 9 9

unseal Substring.takeWhileAux Substring.takeRightWhileAux in
theorem aggregateData_spec_witness :
    (∃ a ∈ aggregateData Record.content [rC1, rC2, rC3],
      a.tag = "A" ∧ a.maxMark = 12 ∧ a.schoolMean = 3 ∧ a.stateMean = 2)
    ∧ ¬ (∃ a ∈ aggregateData Record.content [rC1, rC2, rC3], a.tag = "") := by
  have H := aggregateData_spec Record.content [rC1, rC2, rC3]
  constructor
  · obtain ⟨a, ha, hat⟩ := (H.2.1 "A").mpr
      ⟨by decide, rC1, by simp, by decide⟩
    have h1 := H.1 a ha
    rw [hat] at h1
    have hev : tagRecs Record.content "A" [rC1, rC2, rC3] = [rC1, rC2] := by
      decide
    rw [hev] at h1
    refine ⟨a, ha, hat, ?_, ?_, ?_⟩
    · rw [h1.2.2.1]
      norm_num [rC1, rC2]
    · rw [h1.2.2.2.1]
      norm_num [rC1, rC2]
    · rw [h1.2.2.2.2]
      norm_num [rC1, rC2]
  · rintro ⟨a, ha, hat⟩
    exact ((H.2.1 "").mp ⟨a, ha, hat⟩).1 rfl

/-! ## Page ordering (`pdf-generator.js`, `sortPages`) -/

/-- The grouping key `` `${p.subject}|${p.year}` ``. -/
def pageKey (p : Page) : String :=
  p.subject ++ "|" ++ p.year

/-- The score function of `sortPages`: `topbottom` detail pages score 35,
`performance-summary` charts 25, titles containing both `Summary` and
`School vs State` 60, `Summary` alone 40, `Breakdown` 50,
`School vs State` alone 20, everything else 10 — conditions tested in this
order. -/
def score (p : Page) : Nat :=
  if p.type = "topbottom" then 35
  else if p.subType = some "performance-summary" then 25
  else if strContains p.title "Summary" then
    (if strContains p.title "School vs State" then 60 else 40)
  else if strContains p.title "Breakdown" then 50
  else if strContains p.title "School vs State" then 20
  else 10

/-- The keys of a JavaScript object built by pushing each element into
`groups[key]`: first-occurrence order, no duplicates. -/
def firstOccKeys (f : α → String) (l : List α) : List String :=
  l.foldl (fun ks p => if f p ∈ ks then ks else ks ++ [f p]) []

/-- `sortPages(allPages)`: group by the composite `subject|year` key, sort
the keys with the default (string) sort, and concatenate the groups, each
stable-sorted by ascending score. -/
def sortPages (allPages : List Page) : List Page :=
  let sortedKeys :=
    (firstOccKeys pageKey allPages).mergeSort fun a b => decide (a ≤ b)
  sortedKeys.flatMap fun k =>
    (allPages.filter fun p => decide (pageKey p = k)).mergeSort
      fun a b => decide (score a ≤ score b)

theorem firstOccKeys_aux (f : α → String) (l : List α) (ks : List String) :
    (ks.Nodup → (l.foldl (fun ks p => if f p ∈ ks then ks else ks ++ [f p]) ks).Nodup)
    ∧ (∀ t, t ∈ l.foldl (fun ks p => if f p ∈ ks then ks else ks ++ [f p]) ks
        ↔ t ∈ ks ∨ ∃ p ∈ l, f p = t) := by
  induction l generalizing ks with
  | nil => simp
  | cons q rest ih =>
    constructor
    · intro hnodup
      rw [List.foldl_cons]
      refine (ih _).1 ?_
      show (if f q ∈ ks then ks else ks ++ [f q]).Nodup
      by_cases hmem : f q ∈ ks
      · rwa [if_pos hmem]
      · rw [if_neg hmem, List.nodup_append]
        refine ⟨hnodup, List.nodup_singleton _, ?_⟩
        intro a ha hb
        rw [List.mem_singleton] at hb
        exact hmem (hb ▸ ha)
    · intro t
      rw [List.foldl_cons]
      by_cases hmem : f q ∈ ks
      · rw [if_pos hmem, (ih ks).2 t]
        constructor
        · rintro (h | h)
          · exact Or.inl h
          · rcases h with ⟨p, hp, hpt⟩
            exact Or.inr ⟨p, List.mem_cons_of_mem _ hp, hpt⟩
        · rintro (h | ⟨p, hp, hpt⟩)
          · exact Or.inl h
          · rcases List.mem_cons.mp hp with rfl | hp'
            · exact Or.inl (hpt ▸ hmem)
            · exact Or.inr ⟨p, hp', hpt⟩
      · rw [if_neg hmem, (ih (ks ++ [f q])).2 t]
        constructor
        · rintro (h | h)
          · rcases List.mem_append.mp h with h' | h'
            · exact Or.inl h'
            · rw [List.mem_singleton] at h'
              exact Or.inr ⟨q, List.mem_cons_self _ _, h'.symm⟩
          · rcases h with ⟨p, hp, hpt⟩
            exact Or.inr ⟨p, List.mem_cons_of_mem _ hp, hpt⟩
        · rintro (h | ⟨p, hp, hpt⟩)
          · exact Or.inl (List.mem_append.mpr (Or.inl h))
          · rcases List.mem_cons.mp hp with rfl | hp'
            · exact Or.inl (List.mem_append.mpr (Or.inr (by simp [hpt])))
            · exact Or.inr ⟨p, hp', hpt⟩

theorem firstOccKeys_nodup (f : α → String) (l : List α) :
    (firstOccKeys f l).Nodup :=
  (firstOccKeys_aux f l []).1 List.nodup_nil

theorem mem_firstOccKeys (f : α → String) (l : List α) (t : String) :
    t ∈ firstOccKeys f l ↔ ∃ p ∈ l, f p = t := by
  rw [firstOccKeys, (firstOccKeys_aux f l []).2 t]
  simp

theorem flatMap_perm_congr (ks : List β) (f g : β → List α)
    (h : ∀ k ∈ ks, (f k).Perm (g k)) :
    (ks.flatMap f).Perm (ks.flatMap g) := by
  induction ks with
  | nil => simp
  | cons k rest ih =>
    rw [List.flatMap_cons, List.flatMap_cons]
    exact (h k (List.mem_cons_self _ _)).append
      (ih fun k' hk' => h k' (List.mem_cons_of_mem _ hk'))

theorem flatMap_filter_perm [DecidableEq β] (key : α → β) (ks : List β)
    (l : List α) (hnodup : ks.Nodup) (hcover : ∀ p ∈ l, key p ∈ ks) :
    (ks.flatMap fun k => l.filter fun p => decide (key p = k)).Perm l := by
  induction ks generalizing l with
  | nil =>
    have : l = [] := by
      rw [List.eq_nil_iff_forall_not_mem]
      intro p hp
      exact absurd (hcover p hp) (List.not_mem_nil _)
    rw [this]
    simp
  | cons k rest ih =>
    rw [List.flatMap_cons]
    have hsplit : List.Perm
        (l.filter (fun p => decide (key p = k))
          ++ l.filter (fun p => !(decide (key p = k))))
        l := List.filter_append_perm _ l
    refine List.Perm.trans ?_ hsplit
    apply List.Perm.append_left
    have hrest : ∀ k' ∈ rest,
        (l.filter (fun p => !(decide (key p = k)))).filter
            (fun p => decide (key p = k'))
          = l.filter (fun p => decide (key p = k')) := by
      intro k' hk'
      have hk'k : ¬ k' = k := by
        intro h
        exact (List.nodup_cons.mp hnodup).1 (h ▸ hk')
      rw [List.filter_filter]
      apply List.filter_congr
      intro p hp
      by_cases hpk : key p = k'
      · simp [hpk, hk'k]
      · simp [hpk]
    have ihr := ih (l.filter fun p => !(decide (key p = k)))
      (List.nodup_cons.mp hnodup).2
      (by
        intro p hp
        rw [List.mem_filter] at hp
        rcases List.mem_cons.mp (hcover p hp.1) with h | h
        · exfalso
          have := hp.2
          simp [h] at this
        · exact h)
    have hcongr : (rest.flatMap fun k' => l.filter fun p => decide (key p = k'))
        = rest.flatMap fun k' =>
            (l.filter fun p => !(decide (key p = k))).filter
              fun p => decide (key p = k') := by
      unfold List.flatMap
      exact congrArg List.flatten
        (List.map_congr_left fun k' hk' => (hrest k' hk').symm)
    rw [hcongr]
    exact ihr

/-- The order the claim specifies on rendered pages: strictly earlier
composite key, or same composite key and lower-or-equal score. -/
def pageOrderLE (p q : Page) : Prop :=
  pageKey p < pageKey q ∨ (pageKey p = pageKey q ∧ score p ≤ score q)

theorem flatMap_pairwise_pageOrder (ks : List String) (f : String → List Page)
    (hks : ks.Pairwise (· < ·))
    (hkey : ∀ k ∈ ks, ∀ p ∈ f k, pageKey p = k)
    (hsorted : ∀ k ∈ ks, (f k).Pairwise fun a b => score a ≤ score b) :
    (ks.flatMap f).Pairwise pageOrderLE := by
  induction ks with
  | nil => simp
  | cons k rest ih =>
    rw [List.flatMap_cons, List.pairwise_append]
    refine ⟨?_, ?_, ?_⟩
    · apply List.Pairwise.imp_of_mem ?_ (hsorted k (List.mem_cons_self _ _))
      intro a b ha hb hab
      exact Or.inr ⟨(hkey k (List.mem_cons_self _ _) a ha).trans
        (hkey k (List.mem_cons_self _ _) b hb).symm, hab⟩
    · exact ih (List.pairwise_cons.mp hks).2
        (fun k' hk' => hkey k' (List.mem_cons_of_mem _ hk'))
        (fun k' hk' => hsorted k' (List.mem_cons_of_mem _ hk'))
    · intro a ha b hb
      left
      obtain ⟨k', hk', hbk'⟩ := List.mem_flatMap.mp hb
      rw [hkey k (List.mem_cons_self _ _) a ha,
        hkey k' (List.mem_cons_of_mem _ hk') b hbk']
      exact List.rel_of_pairwise_cons hks hk'

theorem flatMap_eq_of_single {F : String → List Page} (k : String)
    (ks : List String) (hnodup : ks.Nodup)
    (hz : ∀ k' ∈ ks, k' ≠ k → F k' = []) :
    ks.flatMap F = if k ∈ ks then F k else [] := by
  induction ks with
  | nil => simp
  | cons k' rest ih =>
    rw [List.flatMap_cons]
    have ihr := ih (List.nodup_cons.mp hnodup).2
      fun a ha hne => hz a (List.mem_cons_of_mem _ ha) hne
    by_cases hk : k' = k
    · subst hk
      have hrest : k' ∉ rest := (List.nodup_cons.mp hnodup).1
      rw [ihr, if_neg hrest, List.append_nil,
        if_pos (List.mem_cons_self _ _)]
    · rw [hz k' (List.mem_cons_self _ _) hk, List.nil_append, ihr]
      by_cases hkr : k ∈ rest
      · rw [if_pos hkr, if_pos (List.mem_cons_of_mem _ hkr)]
      · rw [if_neg hkr, if_neg (by
          rw [List.mem_cons]
          rintro (h | h)
          · exact hk h.symm
          · exact hkr h)]

theorem score_le_trans : ∀ (a b c : Page),
    decide (score a ≤ score b) → decide (score b ≤ score c)
    → decide (score a ≤ score c) := by
  intro a b c h1 h2
  simp only [decide_eq_true_eq] at h1 h2 ⊢
  omega

theorem score_le_total : ∀ (a b : Page),
    (decide (score a ≤ score b) || decide (score b ≤ score a)) := by
  intro a b
  rcases Nat.le_total (score a) (score b) with h | h
  · simp [h]
  · simp [h]

theorem strLe_trans : ∀ (a b c : String),
    decide (a ≤ b) → decide (b ≤ c) → decide (a ≤ c) := by
  intro a b c h1 h2
  simp only [decide_eq_true_eq] at h1 h2 ⊢
  exact le_trans h1 h2

theorem strLe_total : ∀ (a b : String),
    (decide (a ≤ b) || decide (b ≤ a)) := by
  intro a b
  rcases le_total a b with h | h
  · simp [h]
  · simp [h]

/-- Claim C5: `sortPages` groups pages by the composite `subject|year` key,
orders the groups by ascending lexicographic comparison of that key, and
orders each group by ascending score (35 top/bottom detail, 25
performance-summary, 60 Summary with School vs State, 40 Summary alone,
50 Breakdown, 20 School vs State alone, 10 otherwise, as computed by
`score`), ties keeping encounter order; in particular, within one key a
lower-scored page (e.g. a Breakdown page, 50) renders strictly before a
higher-scored one (e.g. a tag-summary School-vs-State page, 60). -/
theorem sortPages_spec (pages : List Page) (k : String) (n : Nat) :
    (sortPages pages).Perm pages
    ∧ (sortPages pages).Pairwise pageOrderLE
    ∧ (sortPages pages).filter
          (fun p => decide (pageKey p = k) && decide (score p = n))
        = pages.filter (fun p => decide (pageKey p = k) && decide (score p = n))
    ∧ (∀ (i j : Fin (sortPages pages).length),
        pageKey ((sortPages pages).get i) = pageKey ((sortPages pages).get j)
        → score ((sortPages pages).get i) < score ((sortPages pages).get j)
        → (i : Nat) < (j : Nat)) := by
  have hrw : sortPages pages =
      ((firstOccKeys pageKey pages).mergeSort fun a b => decide (a ≤ b)).flatMap
        fun k' => (pages.filter fun p => decide (pageKey p = k')).mergeSort
          fun a b => decide (score a ≤ score b) := rfl
  have hskNodup :
      ((firstOccKeys pageKey pages).mergeSort fun a b => decide (a ≤ b)).Nodup :=
    (List.mergeSort_perm _ _).nodup_iff.mpr (firstOccKeys_nodup _ _)
  have hskMem : ∀ t,
      t ∈ ((firstOccKeys pageKey pages).mergeSort fun a b => decide (a ≤ b))
      ↔ ∃ p ∈ pages, pageKey p = t := by
    intro t
    rw [List.mem_mergeSort, mem_firstOccKeys]
  have hgroupMem : ∀ k' q,
      q ∈ ((pages.filter fun p => decide (pageKey p = k')).mergeSort
        fun a b => decide (score a ≤ score b))
      → q ∈ pages ∧ pageKey q = k' := by
    intro k' q hq
    rw [List.mem_mergeSort, List.mem_filter] at hq
    exact ⟨hq.1, of_decide_eq_true hq.2⟩
  have hpairwise : (sortPages pages).Pairwise pageOrderLE := by
    rw [hrw]
    apply flatMap_pairwise_pageOrder
    · have hsorted := List.sorted_mergeSort strLe_trans strLe_total
        (firstOccKeys pageKey pages)
      have hne : ((firstOccKeys pageKey pages).mergeSort
          fun a b => decide (a ≤ b)).Pairwise (· ≠ ·) := hskNodup
      exact (hsorted.and hne).imp fun h =>
        lt_of_le_of_ne (of_decide_eq_true h.1) h.2
    · intro k' hk' p hp
      exact (hgroupMem k' p hp).2
    · intro k' hk'
      exact (List.sorted_mergeSort score_le_trans score_le_total _).imp
        fun h => of_decide_eq_true h
  refine ⟨?_, hpairwise, ?_, ?_⟩
  · rw [hrw]
    refine List.Perm.trans
      (flatMap_perm_congr _ _ _ fun k' hk' => List.mergeSort_perm _ _) ?_
    apply flatMap_filter_perm pageKey _ pages hskNodup
    intro p hp
    exact (hskMem (pageKey p)).mpr ⟨p, hp, rfl⟩
  · rw [hrw, List.filter_flatMap]
    rw [flatMap_eq_of_single k _ hskNodup (by
      intro k' hk' hne
      rw [List.filter_eq_nil_iff]
      intro q hq
      have := (hgroupMem k' q hq).2
      simp [this, hne])]
    by_cases hk : k ∈ (firstOccKeys pageKey pages).mergeSort
        fun a b => decide (a ≤ b)
    · rw [if_pos hk]
      rw [mergeSort_filter_congr _ score_le_trans score_le_total _ (by
        intro a b ha hb
        rw [Bool.and_eq_true] at ha hb
        have hsa := of_decide_eq_true ha.2
        have hsb := of_decide_eq_true hb.2
        rw [decide_eq_true_eq]
        omega)]
      rw [List.filter_filter]
      apply List.filter_congr
      intro p hp
      by_cases hpk : pageKey p = k
      · simp [hpk]
      · simp [hpk]
    · rw [if_neg hk]
      symm
      rw [List.filter_eq_nil_iff]
      intro q hq hpred
      rw [Bool.and_eq_true] at hpred
      exact hk ((hskMem k).mpr ⟨q, hq, of_decide_eq_true hpred.1⟩)
  · intro i j hkeq hslt
    rcases Nat.lt_trichotomy (i : Nat) (j : Nat) with h | h | h
    · exact h
    · exfalso
      have : i = j := Fin.ext h
      rw [this] at hslt
      exact lt_irrefl _ hslt
    · exfalso
      have hji := List.pairwise_iff_get.mp hpairwise j i h
      rcases hji with hlt | ⟨heq, hle⟩
      · rw [hkeq] at hlt
        exact lt_irrefl _ hlt
      · omega

/-- A breakdown chart page (score 50) for `(Maths, 2024)`. -/
def pg1 : Page :=
  Page.mk "Maths" "2024" "Maths - 2024 - QPC Breakdown: Algebra" "chart"
    none none

/-- A tag-summary school-vs-state chart page (score 60) for the same
`(Maths, 2024)`. -/
def pg2 : Page :=
  Page.mk "Maths" "2024" "Maths - 2024 - QPC Summary (School vs State)" "chart"
    none none

unseal String.ltb List.merge List.mergeSort in
theorem sortPages_spec_witness :
    sortPages [pg2, pg1] = [pg1, pg2] ∧ (0 : Nat) < 1 := by
  have H := sortPages_spec [pg2, pg1] "Maths|2024" 50
  refine ⟨by decide, ?_⟩
  exact H.2.2.2 ⟨0, by decide⟩ ⟨1, by decide⟩ (by decide) (by decide)

/-! ## Table of contents and document assembly (`pdf-generator.js`,
`createSubjectPDF` / `addTOCPages`) -/

/-- `Math.ceil(entries.length / entriesPerPage)` with `entriesPerPage = 20`. -/
def tocPageCount (n : Nat) : Nat :=
  (n + 19) / 20

/-- The final page number of each ordered content page: `idx + 2` assigned
when the TOC entries are built in `createSubjectPDF`, then `+= tocPageCount`
applied to every entry in `addTOCPages`. -/
def tocNumbers (n : Nat) : List Nat :=
  (List.range n).map fun idx => idx + 2 + tocPageCount n

/-- The TOC listing pages: page `i` shows
`entries.slice(i*entriesPerPage, (i+1)*entriesPerPage)`. -/
def tocListings (entries : List β) : List (List β) :=
  (List.range (tocPageCount entries.length)).map
    fun i => (entries.drop (i * 20)).take 20

/-- One page of the assembled per-subject document. -/
inductive DocPage (β : Type u) where
  | title
  | toc (i : Nat)
  | content (p : β)
deriving DecidableEq

/-- The order in which `createSubjectPDF` emits pages: the title page, then
the TOC listing pages added by `addTOCPages`, then one page per ordered
content page. -/
def subjectDocument (pages : List β) : List (DocPage β) :=
  DocPage.title ::
    ((List.range (tocPageCount pages.length)).map DocPage.toc
      ++ pages.map DocPage.content)

theorem range_chunks_flatten (c : Nat) (l : List β) :
    ((List.range c).map fun i => (l.drop (i * 20)).take 20).flatten
      = l.take (c * 20) := by
  induction c with
  | zero => simp
  | succ c ih =>
    rw [List.range_succ, List.map_append, List.flatten_append]
    simp only [List.map_cons, List.map_nil, List.flatten_cons,
      List.flatten_nil, List.append_nil]
    rw [ih, ← List.take_add]
    congr 1
    omega

theorem tocPageCount_ceil (n : Nat) :
    n ≤ 20 * tocPageCount n ∧ 20 * tocPageCount n < n + 20 := by
  unfold tocPageCount
  omega

/-- Claim C6: the table of contents lays out 20 entries per listing page,
giving `tocPageCount = ceil(N/20)` listing pages; the entry for the content
page at 1-based position `i+1` receives page number `(i+1) + 1 + tocPageCount`
(one title page plus the listing pages); these numbers strictly increase
along the ordered page list, and each equals the page's actual position in
the assembled document (title page, listing pages, then content pages). -/
theorem toc_spec (pages : List β) (i : Nat) (h : i < pages.length) :
    (pages.length ≤ 20 * tocPageCount pages.length
      ∧ 20 * tocPageCount pages.length < pages.length + 20)
    ∧ (tocListings pages).flatten = pages
    ∧ (∀ l ∈ tocListings pages, l.length ≤ 20)
    ∧ (tocNumbers pages.length)[i]?
        = some (i + 2 + tocPageCount pages.length)
    ∧ (tocNumbers pages.length).Pairwise (· < ·)
    ∧ (subjectDocument pages)[(i + 2 + tocPageCount pages.length) - 1]?
        = some (DocPage.content (pages.get ⟨i, h⟩)) := by
  refine ⟨tocPageCount_ceil _, ?_, ?_, ?_, ?_, ?_⟩
  · unfold tocListings
    rw [range_chunks_flatten]
    apply List.take_of_length_le
    have := (tocPageCount_ceil pages.length).1
    omega
  · intro l hl
    unfold tocListings at hl
    obtain ⟨j, hj, rfl⟩ := List.mem_map.mp hl
    exact List.length_take_le _ _
  · unfold tocNumbers
    rw [List.getElem?_map, List.getElem?_range h]
    rfl
  · unfold tocNumbers
    rw [List.pairwise_map]
    apply List.Pairwise.imp ?_ (List.pairwise_lt_range _)
    intro a b hab
    omega
  · unfold subjectDocument
    have hidx : i + 2 + tocPageCount pages.length - 1
        = (tocPageCount pages.length + i) + 1 := by
      omega
    rw [hidx, List.getElem?_cons_succ,
      List.getElem?_append_right (by
        rw [List.length_map, List.length_range]
        omega)]
    rw [List.length_map, List.length_range]
    have hidx2 : tocPageCount pages.length + i - tocPageCount pages.length
        = i := by
      omega
    rw [hidx2, List.getElem?_map, List.getElem?_eq_getElem h]
    rfl

theorem toc_spec_witness :
    ((3 : Nat) ≤ 20 * tocPageCount 3 ∧ 20 * tocPageCount 3 < 3 + 20)
    ∧ (tocNumbers 3)[1]? = some 4
    ∧ (subjectDocument ["p1", "p2", "p3"])[3]?
        = some (DocPage.content "p2") := by
  have H := toc_spec ["p1", "p2", "p3"] 1 (by decide)
  exact ⟨H.1, H.2.2.2.1, H.2.2.2.2.2⟩

/-! ## Header detection (`data-processor.js`, `loadAndParse`) -/

/-- A raw worksheet cell: `none` models `null`/`undefined`, `some s` a cell
whose JavaScript string form is `s`. -/
def Cell : Type := Option String

/-- The string a cell contributes to the header scan: `null`/`undefined`
becomes `""`, a string form longer than 1000 characters is treated as empty
(never trimmed), anything else is trimmed. -/
def cellScanForm (c : Cell) : String :=
  match c with
  | none => ""
  | some s => if s.length > 1000 then "" else s.trim

/-- One row qualifies as the header row: among the scan forms of its first
12 cells, the literal `"Subject"` is present and some cell contains the
substring `"Question (Item)"`. -/
def rowQualifies (row : List Cell) : Bool :=
  let cells := (row.take 12).map cellScanForm
  cells.contains "Subject"
    && cells.any fun c => strContains c "Question (Item)"

/-- The header search loop of `loadAndParse`: scan the first
`min(aoa.length, 20)` rows top to bottom and return the first qualifying
index, falling back to row 0. -/
def findHeaderRow (aoa : List (List Cell)) : Nat :=
  ((aoa.take 20).findIdx? rowQualifies).getD 0

/-- Claim C7: header detection scans at most the first 20 rows, inspecting
only the first 12 columns of each with oversized (> 1000 character) cells
treated as empty; a row qualifies exactly when its first-12 trimmed cells
include the literal `"Subject"` and one of them contains the substring
`"Question (Item)"`; the first qualifying row wins and row 0 is the
fallback when none qualifies. -/
theorem findHeaderRow_spec (aoa : List (List Cell)) :
    ((∃ i, ∃ hi : i < aoa.length, i < 20 ∧ rowQualifies (aoa.get ⟨i, hi⟩))
      → findHeaderRow aoa < 20
        ∧ ∃ hh : findHeaderRow aoa < aoa.length,
          rowQualifies (aoa.get ⟨findHeaderRow aoa, hh⟩)
          ∧ ∀ j, ∀ hj : j < aoa.length, j < findHeaderRow aoa
            → ¬ rowQualifies (aoa.get ⟨j, hj⟩))
    ∧ ((∀ i, ∀ hi : i < aoa.length, i < 20
          → ¬ rowQualifies (aoa.get ⟨i, hi⟩))
      → findHeaderRow aoa = 0) := by
  constructor
  · rintro ⟨i, hi, hi20, hq⟩
    have hmem : (aoa.take 20).findIdx? rowQualifies ≠ none := by
      rw [ne_eq, List.findIdx?_eq_none_iff]
      push_neg
      refine ⟨aoa.get ⟨i, hi⟩, ?_, by simpa using hq⟩
      rw [List.mem_take_iff_getElem]
      exact ⟨i, by omega, rfl⟩
    obtain ⟨j, hfind⟩ := Option.ne_none_iff_exists'.mp hmem
    have hres : findHeaderRow aoa = j := by
      unfold findHeaderRow
      rw [hfind]
      rfl
    obtain ⟨hjlen, hjq, hjmin⟩ := List.findIdx?_eq_some_iff_getElem.mp hfind
    have hjlen' : j < aoa.length := by
      rw [List.length_take] at hjlen
      omega
    have hj20 : j < 20 := by
      rw [List.length_take] at hjlen
      omega
    refine hres ▸ ⟨hj20, hjlen', ?_, ?_⟩
    · have h2 := hjq
      simp only [List.getElem_take] at h2
      exact h2
    · intro m hm hmj
      have h2 := hjmin m hmj
      simp only [List.getElem_take] at h2
      exact h2
  · intro hnone
    have : (aoa.take 20).findIdx? rowQualifies = none := by
      rw [List.findIdx?_eq_none_iff]
      intro x hx
      rw [List.mem_take_iff_getElem] at hx
      obtain ⟨j, hj, rfl⟩ := hx
      have hj20 : j < 20 := by omega
      have hjlen : j < aoa.length := by omega
      simpa using hnone j hjlen hj20
    unfold findHeaderRow
    rw [this]
    rfl

/-- A worksheet whose header row is row 1 (row 0 is junk). -/
def aoaEx : List (List Cell) :=
  [[some "junk"], [some "Subject", some "has Question (Item) col"]]

unseal Substring.takeWhileAux Substring.takeRightWhileAux in
theorem findHeaderRow_spec_witness :
    (findHeaderRow aoaEx < 20
      ∧ ∃ hh : findHeaderRow aoaEx < aoaEx.length,
          rowQualifies (aoaEx.get ⟨findHeaderRow aoaEx, hh⟩)
          ∧ ∀ j, ∀ hj : j < aoaEx.length, j < findHeaderRow aoaEx
            → ¬ rowQualifies (aoaEx.get ⟨j, hj⟩))
    ∧ findHeaderRow [[(some "junk" : Cell)]] = 0 :=
  ⟨(findHeaderRow_spec aoaEx).1 ⟨1, by decide, by decide, by decide⟩,
    (findHeaderRow_spec [[(some "junk" : Cell)]]).2 (by decide)⟩

/-! ## Column-name canonicalization (`data-processor.js`, `loadAndParse`,
header normalization loop) -/

/-- Canonicalize one raw header: trim, then map Content-Area/QPC variants to
`Question Per Content` and Learning-Outcome/QPO variants to
`Question Per Outcome`. -/
def canonKey (k : String) : String :=
  let t := k.trim
  if strContains t "Content Area" || strContains t "(QPC)" || t == "QPC" then
    "Question Per Content"
  else if strContains t "Learning Outcome" || strContains t "(QPO)"
      || t == "QPO" then
    "Question Per Outcome"
  else t

/-- `if (!newRow[normalizedKey]) newRow[normalizedKey] = row[key]`: set the
binding unless a binding with a truthy (non-empty) value already exists;
an overwrite keeps the binding's original position, as in a JavaScript
object. -/
def setIfFalsy :
    List (String × String) → String → String → List (String × String)
  | [], k, v => [(k, v)]
  | (q, w) :: rest, k, v =>
    if q = k then (if w = "" then (k, v) :: rest else (q, w) :: rest)
    else (q, w) :: setIfFalsy rest k v

/-- The header-normalization loop: fold every raw field through
canonicalization and the falsy-guarded assignment. -/
def normalizeRow (row : List (String × String)) : List (String × String) :=
  row.foldl (fun acc kv => setIfFalsy acc (canonKey kv.1) kv.2) []

/-- The claim's version of the loop: the first raw key always wins and
later duplicates are ignored (presence-guarded assignment). -/
def setIfAbsent :
    List (String × String) → String → String → List (String × String)
  | [], k, v => [(k, v)]
  | (q, w) :: rest, k, v =>
    if q = k then (q, w) :: rest
    else (q, w) :: setIfAbsent rest k v

/-- Normalization as the claim describes it: strictly first-occurrence-wins. -/
def normalizeRowFirstWins (row : List (String × String)) :
    List (String × String) :=
  row.foldl (fun acc kv => setIfAbsent acc (canonKey kv.1) kv.2) []

/-- The value actually kept for a run of duplicate canonical keys: the first
non-empty (truthy) value, or the last value when all are empty. -/
def firstTruthyElseLast : List String → Option String
  | [] => none
  | [v] => some v
  | v :: rest => if v = "" then firstTruthyElseLast rest else some v

/-- The running JavaScript assignment `if (!cur) cur = v` over a value list. -/
def jsAccum : Option String → List String → Option String
  | cur, [] => cur
  | cur, v :: rest =>
    jsAccum (match cur with
      | none => some v
      | some w => if w = "" then some v else some w) rest

unseal Substring.takeWhileAux Substring.takeRightWhileAux in
/-- Counterexample to claim C8: raw row `QPC: "" , Content Area: "B"` — both
headers canonicalize to `Question Per Content`; the claim predicts the first
value (`""`, kept by a first-wins rule) but the code's falsy check lets the
later duplicate overwrite, keeping `"B"`. -/
theorem normalizeRow_not_first_wins :
    (normalizeRow [("QPC", ""), ("Content Area", "B")]).lookup
        "Question Per Content" = some "B"
    ∧ (normalizeRowFirstWins [("QPC", ""), ("Content Area", "B")]).lookup
        "Question Per Content" = some ""
    ∧ ¬ ((normalizeRow [("QPC", ""), ("Content Area", "B")]).lookup
        "Question Per Content" = some "") := by
  refine ⟨by decide, by decide, by decide⟩

theorem setIfFalsy_lookup (acc : List (String × String)) (k v c : String) :
    (setIfFalsy acc k v).lookup c =
      if c = k then
        (match acc.lookup k with
          | none => some v
          | some w => if w = "" then some v else some w)
      else acc.lookup c := by
  induction acc with
  | nil =>
    show [(k, v)].lookup c = _
    by_cases hc : c = k
    · subst hc
      simp [List.lookup]
    · have hbeq : (c == k) = false := by simpa using hc
      simp [List.lookup, hbeq, hc]
  | cons p rest ih =>
    obtain ⟨q, w⟩ := p
    show (if q = k then (if w = "" then (k, v) :: rest else (q, w) :: rest)
        else (q, w) :: setIfFalsy rest k v).lookup c = _
    by_cases hq : q = k
    · subst hq
      rw [if_pos rfl]
      by_cases hw : w = ""
      · rw [if_pos hw]
        by_cases hc : c = q
        · subst hc
          simp [List.lookup, hw]
        · have hbeq : (c == q) = false := by simpa using hc
          simp [List.lookup, hbeq, hc]
      · rw [if_neg hw]
        by_cases hc : c = q
        · subst hc
          simp [List.lookup, hw]
        · have hbeq : (c == q) = false := by simpa using hc
          simp [List.lookup, hbeq, hc]
    · rw [if_neg hq]
      have hbeq3 : (k == q) = false := by
        simpa using fun h : k = q => hq h.symm
      by_cases hc : c = q
      · subst hc
        rw [if_neg hq]
        simp [List.lookup]
      · have hbeq : (c == q) = false := by simpa using hc
        have hls : ((q, w) :: setIfFalsy rest k v).lookup c
            = (setIfFalsy rest k v).lookup c := by
          simp [List.lookup, hbeq]
        have hlc : ((q, w) :: rest).lookup c = rest.lookup c := by
          simp [List.lookup, hbeq]
        have hlk : ((q, w) :: rest).lookup k = rest.lookup k := by
          simp [List.lookup, hbeq3]
        rw [hls, ih, hlc, hlk]

theorem jsAccum_truthy (vs : List String) (w : String) (hw : ¬ w = "") :
    jsAccum (some w) vs = some w := by
  induction vs with
  | nil => rfl
  | cons v rest ih =>
    show jsAccum (if w = "" then some v else some w) rest = some w
    rw [if_neg hw]
    exact ih

theorem jsAccum_none_eq (vs : List String) :
    jsAccum none vs = firstTruthyElseLast vs := by
  induction vs with
  | nil => rfl
  | cons v rest ih =>
    show jsAccum (some v) rest = firstTruthyElseLast (v :: rest)
    by_cases hv : v = ""
    · subst hv
      cases rest with
      | nil => rfl
      | cons u us =>
        show jsAccum (if ("" : String) = "" then some u else some "") us = _
        rw [if_pos rfl]
        have : firstTruthyElseLast ("" :: u :: us)
            = firstTruthyElseLast (u :: us) := by
          show (if ("" : String) = "" then firstTruthyElseLast (u :: us)
            else some "") = _
          rw [if_pos rfl]
        rw [this, ← ih]
        rfl
    · rw [jsAccum_truthy rest v hv]
      cases rest with
      | nil => rfl
      | cons u us =>
        show some v = if v = "" then firstTruthyElseLast (u :: us) else some v
        rw [if_neg hv]

theorem normalizeRow_aux (row : List (String × String))
    (acc : List (String × String)) (c : String) :
    ((row.foldl (fun acc kv => setIfFalsy acc (canonKey kv.1) kv.2)
        acc).lookup c)
    = jsAccum (acc.lookup c)
        ((row.filter fun kv => decide (canonKey kv.1 = c)).map Prod.snd) := by
  induction row generalizing acc with
  | nil => rfl
  | cons kv rest ih =>
    rw [List.foldl_cons, ih]
    by_cases hk : canonKey kv.1 = c
    · rw [List.filter_cons_of_pos (by simpa using hk), List.map_cons]
      rw [setIfFalsy_lookup, if_pos hk.symm, hk]
      rfl
    · rw [List.filter_cons_of_neg (by simpa using hk)]
      rw [setIfFalsy_lookup, if_neg (fun h => hk h.symm)]

/-- Claim C8 (amended): when several raw headers canonicalize to the same
canonical name, the value kept in the normalized row is the first *truthy*
(non-empty) value among them in left-to-right order — and the last value
when every one of them is empty; a later duplicate is ignored only when an
earlier one was non-empty. -/
theorem normalizeRow_lookup (row : List (String × String)) (c : String) :
    (normalizeRow row).lookup c
      = firstTruthyElseLast
          ((row.filter fun kv => decide (canonKey kv.1 = c)).map Prod.snd) := by
  unfold normalizeRow
  rw [normalizeRow_aux row [] c]
  show jsAccum none _ = _
  rw [jsAccum_none_eq]

/-! ## Row filtering and type coercion (`data-processor.js`, `processData`) -/

/-- A raw spreadsheet row after header canonicalization, with every cell in
its JavaScript string form (`sheet_to_json` is called with `defval: ""`, so
missing cells are empty strings; numeric cells behave as their decimal
strings — the degenerate numeric value `0`, which JavaScript would treat as
falsy, is outside this model). -/
structure RawRow where
  subject : String
  year : String
  item : String
  mcEr : String
  content : String
  outcome : String
  schoolMean : String
  stateMean : String
  maxMark : String
deriving DecidableEq

/-- Leading decimal digits of a character list, `none` when there are none. -/
def leadingNat (cs : List Char) : Option Nat :=
  let d := cs.takeWhile Char.isDigit
  if d.isEmpty then none else some (digitsToNat d)

/-- JavaScript `parseInt` (radix 10) on a string cell: skip surrounding
whitespace, optional sign, then the leading digit run; `none` models `NaN`. -/
def parseIntJS (s : String) : Option Int :=
  match s.trim.toList with
  | '-' :: rest => (leadingNat rest).map fun n => -(n : Int)
  | '+' :: rest => (leadingNat rest).map fun n => (n : Int)
  | cs => (leadingNat cs).map fun n => (n : Int)

/-- The numeric value of an unsigned decimal literal prefix
`digits[.digits]`, `none` when no digit is present. -/
def parseDecimal (cs : List Char) : Option ℚ :=
  let intPart := cs.takeWhile Char.isDigit
  match cs.dropWhile Char.isDigit with
  | '.' :: rest2 =>
    let fracPart := rest2.takeWhile Char.isDigit
    if intPart.isEmpty && fracPart.isEmpty then none
    else some ((digitsToNat intPart : ℚ)
      + (digitsToNat fracPart : ℚ) / ((10 : ℚ) ^ fracPart.length))
  | _ =>
    if intPart.isEmpty then none
    else some (digitsToNat intPart : ℚ)

/-- JavaScript `parseFloat` on a string cell holding a plain decimal
numeral (exponent notation does not occur in this data); `none` models
`NaN`. -/
def parseFloatJS (s : String) : Option ℚ :=
  match s.trim.toList with
  | '-' :: rest => (parseDecimal rest).map fun q => -q
  | '+' :: rest => parseDecimal rest
  | cs => parseDecimal cs

/-- `parseInt(row['Year']) || String(row['Year'])`: the integer when it
parses and is non-zero, otherwise the raw string. -/
def coerceYear (y : String) : YearVal :=
  match parseIntJS y with
  | some n => if n = 0 then YearVal.str y else YearVal.int n
  | none => YearVal.str y

/-- The type-coercion step of `processData`: trim the string fields (the
item label is only `String(...)`-converted, not trimmed), coerce the year,
parse the numeric fields with fallback `0`. -/
def coerceRow (r : RawRow) : Record :=
  Record.mk r.subject.trim (coerceYear r.year) r.item r.mcEr.trim
    r.content.trim r.outcome.trim
    ((parseFloatJS r.schoolMean).getD 0)
    ((parseFloatJS r.stateMean).getD 0)
    ((parseFloatJS r.maxMark).getD 0)

/-- The row filter of `processData`, applied to the raw values before any
coercion: drop a row whose item label lower-cases and trims to something
starting with `question`, or whose raw subject, year or item label is
empty (falsy). -/
def rowPassesFilter (r : RawRow) : Bool :=
  !(strStartsWith (r.item.trim.toLower) "question")
    && !(r.subject == "") && !(r.year == "") && !(r.item == "")

/-- `processData`: filter the raw rows, then coerce the survivors (the
`raw` record list of the result object; grouping by subject and year
consumes this list unchanged). -/
def processData (rawData : List RawRow) : List Record :=
  (rawData.filter rowPassesFilter).map coerceRow

/-- The coerced year is never the empty string. -/
def yearNonEmpty : YearVal → Prop
  | YearVal.int _ => True
  | YearVal.str s => s ≠ ""

unseal String.mapAux Substring.takeWhileAux Substring.takeRightWhileAux in
/-- Counterexample to claim C9: a row whose raw subject is a single space is
truthy, so it passes the filter (which runs on the raw values, before
coercion), yet its subject trims to the empty string — the output then
contains a record with an empty subject, which the claim rules out. -/
theorem processData_subject_can_be_empty :
    (processData [RawRow.mk " " "2020" "1" "" "" "" "" "" ""]).map
        Record.subject = [""]
    ∧ (processData [RawRow.mk " " "2020" "1" "" "" "" "" "" ""]).length
        = 1 := by
  refine ⟨by decide, by decide⟩

/-- Claim C9 (amended): the validity filter runs before type coercion, on
the raw values: a row is dropped exactly when its raw item label
lower-cased and trimmed starts with `question`, or its raw subject, year or
item label is empty.  Consequently every output record has a non-empty item
label and a non-empty year, but a whitespace-only raw subject survives the
filter and trims to an empty subject. -/
theorem processData_invariant (rawData : List RawRow) :
    ∀ rec ∈ processData rawData,
      rec.item ≠ "" ∧ yearNonEmpty rec.year := by
  intro rec hrec
  unfold processData at hrec
  obtain ⟨r, hr, rfl⟩ := List.mem_map.mp hrec
  rw [List.mem_filter] at hr
  have hf := hr.2
  unfold rowPassesFilter at hf
  simp only [Bool.and_eq_true, Bool.not_eq_true', beq_eq_false_iff_ne,
    ne_eq] at hf
  refine ⟨hf.2, ?_⟩
  show yearNonEmpty (coerceYear r.year)
  unfold coerceYear
  cases hp : parseIntJS r.year with
  | none =>
    show yearNonEmpty (YearVal.str r.year)
    exact hf.1.2
  | some n =>
    show yearNonEmpty (if n = 0 then YearVal.str r.year else YearVal.int n)
    by_cases hn : n = 0
    · rw [if_pos hn]
      exact hf.1.2
    · rw [if_neg hn]
      trivial

/-- A well-formed raw row used to witness the amended C9 invariant. -/
def okRow : RawRow :=
  RawRow.mk "Maths" "2024" "12b" "MC" "Algebra" "MA12-1" "1.5" "1.2" "2"

unseal String.mapAux Substring.takeWhileAux Substring.takeRightWhileAux in
theorem processData_invariant_witness :
    (coerceRow okRow).item ≠ "" ∧ yearNonEmpty (coerceRow okRow).year := by
  have hpd : processData [okRow] = [coerceRow okRow] := by
    unfold processData
    rw [List.filter_cons_of_pos (by decide), List.filter_nil]
    rfl
  exact processData_invariant [okRow] (coerceRow okRow)
    (hpd ▸ List.mem_singleton.mpr rfl)

/-! ## Chunked payload reconstruction (`data-processor.js`,
`reconstructBase64`) -/

/-- A field name matching the strict pattern `^HSC_BASE64_\d+$`:
the literal prefix followed by one or more digits and nothing else. -/
def isChunkKey (k : String) : Bool :=
  let cs := k.toList
  decide (cs.take 11 = "HSC_BASE64_".toList)
    && !(cs.drop 11).isEmpty && (cs.drop 11).all Char.isDigit

/-- `parseInt(k.replace('HSC_BASE64_', ''))`: the numeric suffix of a chunk
field name. -/
def chunkIndex (k : String) : Nat :=
  digitsToNat (k.toList.drop 11)

/-- `row[k]` for the string-valued fields of the record. -/
def getField (row : List (String × String)) (k : String) : String :=
  (row.lookup k).getD ""

/-- The chunk field names of a record, sorted ascending by numeric suffix
(the comparator `numA - numB`). -/
def chunkKeys (row : List (String × String)) : List String :=
  ((row.map Prod.fst).filter isChunkKey).mergeSort
    fun a b => decide (chunkIndex a ≤ chunkIndex b)

/-- The first validation pass of `reconstructBase64`: skip falsy (empty)
values, skip any chunk longer than 500 KiB, and stop accepting anything
further (`break`) once the running total would exceed 50 MiB. -/
def firstPass (get : String → String) : List String → Nat → List String
  | [], _ => []
  | k :: ks, total =>
    if get k = "" then firstPass get ks total
    else if (get k).length > 500 * 1024 then firstPass get ks total
    else if total + (get k).length > 50 * 1024 * 1024 then []
    else k :: firstPass get ks (total + (get k).length)

/-- Prepend the canonical PNG data prefix unless a `data:image` prefix is
already present. -/
def withImagePrefix (s : String) : String :=
  if strStartsWith s "data:image" then s else "data:image/png;base64," ++ s

/-- `reconstructBase64(row)`: collect and sort the chunk fields, cap them at
200, run the bounded first pass, then join the trimmed surviving values,
dropping any that trim to empty; `null` when nothing remains.  (The final
`fullB64 || null` of the source is always the joined string here, because
the join of non-empty parts is non-empty.) -/
def reconstructBase64 (row : List (String × String)) : Option String :=
  if (chunkKeys row).isEmpty then none
  else if (firstPass (getField row) ((chunkKeys row).take 200) 0).isEmpty then
    none
  else if (((firstPass (getField row) ((chunkKeys row).take 200) 0).map
      fun k => (getField row k).trim).filter fun v => !(v == "")).isEmpty then
    none
  else some (withImagePrefix (String.join
    (((firstPass (getField row) ((chunkKeys row).take 200) 0).map
      fun k => (getField row k).trim).filter fun v => !(v == ""))))

/-- The bounded acceptance loop exactly as claim C4 words it, acting on the
chunk values themselves: skip any chunk longer than 500 KiB, stop accepting
once the running total of accepted lengths would exceed 50 MiB. -/
def boundedAccept : List String → Nat → List String
  | [], _ => []
  | v :: vs, total =>
    if v.length > 500 * 1024 then boundedAccept vs total
    else if total + v.length > 50 * 1024 * 1024 then []
    else v :: boundedAccept vs (total + v.length)

/-- Reconstruction as claim C4 states it: the sorted chunk values (at most
200 fields) pass only the two size bounds — no empty-value skipping and no
trimming — and the survivors are concatenated, with `null` exactly when
zero chunks survive the bounds. -/
def reconstructBase64Claim (row : List (String × String)) : Option String :=
  if (boundedAccept (((chunkKeys row).take 200).map (getField row)) 0).isEmpty
  then none
  else some (withImagePrefix (String.join
    (boundedAccept (((chunkKeys row).take 200).map (getField row)) 0)))

/-- Reconstruction as the code actually behaves, in the claim's style:
empty chunk values are dropped before the size bounds are applied, the
surviving values are trimmed, values trimming to empty are dropped, and
`null` is returned when no non-empty trimmed value remains. -/
def reconstructBase64Amended (row : List (String × String)) : Option String :=
  if (((boundedAccept ((((chunkKeys row).take 200).map (getField row)).filter
      fun v => !(v == "")) 0).map String.trim).filter
      fun v => !(v == "")).isEmpty then none
  else some (withImagePrefix (String.join
    (((boundedAccept ((((chunkKeys row).take 200).map (getField row)).filter
      fun v => !(v == "")) 0).map String.trim).filter fun v => !(v == ""))))

unseal String.mapAux Substring.takeWhileAux Substring.takeRightWhileAux
  List.merge List.mergeSort in
/-- Counterexample to claim C4: a record whose only chunk field holds the
empty string.  The empty chunk passes all three of the claim's bounds, so
the claim predicts the bare PNG prefix; the code skips falsy chunk values
in its first pass and returns `null` (`none`). -/
theorem reconstructBase64_counterexample :
    reconstructBase64 [("HSC_BASE64_0", "")] = none
    ∧ reconstructBase64Claim [("HSC_BASE64_0", "")]
        = some "data:image/png;base64,"
    ∧ reconstructBase64 [("HSC_BASE64_0", "")]
        ≠ reconstructBase64Claim [("HSC_BASE64_0", "")] := by
  refine ⟨by decide, by decide, by decide⟩

theorem firstPass_map_get (get : String → String) (ks : List String)
    (total : Nat) :
    (firstPass get ks total).map get
      = boundedAccept ((ks.map get).filter fun v => !(v == "")) total := by
  induction ks generalizing total with
  | nil => rfl
  | cons k rest ih =>
    show ((if get k = "" then firstPass get rest total
      else if (get k).length > 500 * 1024 then firstPass get rest total
      else if total + (get k).length > 50 * 1024 * 1024 then ([] : List String)
      else k :: firstPass get rest (total + (get k).length)).map get) = _
    rw [List.map_cons]
    by_cases hv : get k = ""
    · rw [if_pos hv, List.filter_cons_of_neg (by simp [hv])]
      exact ih total
    · rw [if_neg hv, List.filter_cons_of_pos (by simpa using hv)]
      show _ = (if (get k).length > 500 * 1024 then
          boundedAccept ((rest.map get).filter fun v => !(v == "")) total
        else if total + (get k).length > 50 * 1024 * 1024 then []
        else get k :: boundedAccept ((rest.map get).filter fun v => !(v == ""))
          (total + (get k).length))
      by_cases hbig : (get k).length > 500 * 1024
      · rw [if_pos hbig, if_pos hbig]
        exact ih total
      · rw [if_neg hbig, if_neg hbig]
        by_cases hmax : total + (get k).length > 50 * 1024 * 1024
        · rw [if_pos hmax, if_pos hmax]
          rfl
        · rw [if_neg hmax, if_neg hmax, List.map_cons]
          rw [ih (total + (get k).length)]

/-- Claim C4 (amended): `reconstructBase64` considers exactly the fields
matching `HSC_BASE64_<digits>`, ordered ascending by numeric suffix with at
most 200 of them used; empty chunk values are dropped before the size
bounds, any chunk longer than 500*1024 characters is skipped, accumulation
stops once the running total of accepted lengths would exceed 50*1024*1024,
the surviving values are trimmed and those trimming to empty dropped, and
the result is `null` when nothing remains, otherwise the concatenation of
the surviving trimmed chunks with `data:image/png;base64,` prepended
exactly when the concatenation does not already start with `data:image`. -/
theorem reconstructBase64_spec (row : List (String × String)) :
    reconstructBase64 row = reconstructBase64Amended row
    ∧ (chunkKeys row).Pairwise (fun a b => chunkIndex a ≤ chunkIndex b)
    ∧ (∀ k, k ∈ chunkKeys row ↔ k ∈ row.map Prod.fst ∧ isChunkKey k) := by
  refine ⟨?_, ?_, ?_⟩
  · unfold reconstructBase64 reconstructBase64Amended
    have hparts :
        ((firstPass (getField row) ((chunkKeys row).take 200) 0).map
          fun k => (getField row k).trim).filter (fun v => !(v == ""))
        = ((boundedAccept ((((chunkKeys row).take 200).map
            (getField row)).filter fun v => !(v == "")) 0).map
          String.trim).filter (fun v => !(v == "")) := by
      rw [← firstPass_map_get, List.map_map]
      rfl
    rw [← hparts]
    by_cases hempty : (chunkKeys row).isEmpty
    · rw [if_pos hempty]
      rw [List.isEmpty_iff] at hempty
      rw [hempty]
      rfl
    · rw [if_neg hempty]
      by_cases hvalid : (firstPass (getField row)
          ((chunkKeys row).take 200) 0).isEmpty
      · rw [if_pos hvalid]
        rw [List.isEmpty_iff] at hvalid
        rw [hvalid]
        rfl
      · rw [if_neg hvalid]
  · apply List.Pairwise.imp ?_ (List.sorted_mergeSort
      (fun a b c h1 h2 => by
        simp only [decide_eq_true_eq] at h1 h2 ⊢
        omega)
      (fun a b => by
        rcases Nat.le_total (chunkIndex a) (chunkIndex b) with h | h
        · simp [h]
        · simp [h]) _)
    intro a b h
    exact of_decide_eq_true h
  · intro k
    unfold chunkKeys
    rw [List.mem_mergeSort, List.mem_filter]
